import Mathlib

/-!
Verification of the RSI engine of `src/Rsicvs.py` (`rsi_wilder`).

The Python function takes a pandas Series (or DataFrame) of prices and a
period, drops missing (NaN) prices, and computes Wilder's RSI with an
SMA-seeded start, writing the results back onto the positions of the
original index (NaN where undefined).

Shallow embedding choices:
* a price series is a `List (Option ℚ)` — `none` models a missing (NaN)
  price; the filtered series `prices.filterMap id` models
  `prices.dropna()`;
* real arithmetic is modelled by `ℚ`;
* an output cell is an `Option ℚ` — `none` models NaN (undefined);
* the result of a call is `Except String (List (Option ℚ))`, modelling
  the function's exception channel.  Within the modelled domain the
  function never raises: it has no period validation, and even for
  `period = 0` the loop arithmetic is numpy scalar math (`g` is an
  `np.float64`, so `avg_gain * (period - 1) + g` promotes to `np.float64`
  and the division by zero follows IEEE-754: NaN/inf with a
  RuntimeWarning, no exception), so every branch is `Except.ok`.
-/

namespace Rsicvs

/-- `delta ps i` models `prices_no_na.diff()` at position `i ≥ 1` of the
filtered series: the difference between consecutive available prices.
(At `i = 0` the source holds NaN there; the source only ever reads deltas
at positions `1 ≤ i < n`, which is the range this model is used on.) -/
def delta (ps : List ℚ) (i : ℕ) : ℚ :=
  ps.getD i 0 - ps.getD (i - 1) 0

/-- `gain ps i` models `delta.clip(lower=0)` at position `i`:
the positive part of the price delta. -/
def gain (ps : List ℚ) (i : ℕ) : ℚ :=
  max (delta ps i) 0

/-- `loss ps i` models `-delta.clip(upper=0)` at position `i`:
the magnitude of the negative part of the price delta. -/
def loss (ps : List ℚ) (i : ℕ) : ℚ :=
  max (-delta ps i) 0

/-- `first_gain_avg` models `np.mean(gain_vals[1 : period + 1])`.  Under
the guard `n > period` the slice holds exactly the `period` gains at
positions `1 .. period`, so the mean is their sum divided by `period`. -/
def first_gain_avg (ps : List ℚ) (p : ℕ) : ℚ :=
  (((List.range p).map fun k => gain ps (k + 1)).sum) / (p : ℚ)

/-- `first_loss_avg` models `np.mean(loss_vals[1 : period + 1])`. -/
def first_loss_avg (ps : List ℚ) (p : ℕ) : ℚ :=
  (((List.range p).map fun k => loss ps (k + 1)).sum) / (p : ℚ)

/-- `avgs ps p j` is the pair `(avg_gain, avg_loss)` held by the source's
loop state after processing filtered position `p + j`: at `j = 0` the
SMA-seeded averages, and at each later step Wilder's recurrence
`avg = (avg * (period - 1) + x) / period` applied to the previous state
with the gain/loss at position `p + j`. -/
def avgs (ps : List ℚ) (p : ℕ) : ℕ → ℚ × ℚ
  | 0 => (first_gain_avg ps p, first_loss_avg ps p)
  | j + 1 =>
      (((avgs ps p j).1 * ((p : ℚ) - 1) + gain ps (p + j + 1)) / (p : ℚ),
       ((avgs ps p j).2 * ((p : ℚ) - 1) + loss ps (p + j + 1)) / (p : ℚ))

/-- `rsiFromAvgs` models the guarded RSI formula the source applies at
every produced position: `100` when `avg_loss == 0.0`, otherwise
`100 - 100 / (1 + avg_gain / avg_loss)`. -/
def rsiFromAvgs (avg_gain avg_loss : ℚ) : ℚ :=
  if avg_loss = 0 then 100 else 100 - 100 / (1 + avg_gain / avg_loss)

/-- `rsiAt ps p i` models the cell `rsi_vals[i]` after the source's loop:
NaN (`none`) for `i < period`, and the guarded RSI of the loop state at
position `i` from `period` onward. -/
def rsiAt (ps : List ℚ) (p : ℕ) (i : ℕ) : Option ℚ :=
  if i < p then none
  else some (rsiFromAvgs (avgs ps p (i - p)).1 (avgs ps p (i - p)).2)

/-- `rsi_vals ps p` models the full `rsi_vals` array over the filtered
series (`np.full(len(gain_vals), np.nan)` followed by the seed write and
the loop). -/
def rsi_vals (ps : List ℚ) (p : ℕ) : List (Option ℚ) :=
  (List.range ps.length).map (rsiAt ps p)

/-- `writeBack prices vals` models the final alignment loop
`for idx, val in rsi_series_no_na.items(): result.at[idx] = val`:
the result keeps NaN (`none`) at every missing-price position of the
original series and receives the successive entries of `vals` at the
positions whose price is present. -/
def writeBack : List (Option ℚ) → List (Option ℚ) → List (Option ℚ)
  | [], _ => []
  | none :: rest, vals => none :: writeBack rest vals
  | some _ :: rest, vals => vals.headD none :: writeBack rest vals.tail

/-- `rsi_wilder prices period` models the Python `rsi_wilder` applied to a
Series.  Branches, in the source's order:
* `n <= period` → the untouched all-NaN result over the original index;
* `period = 0` (no validation in the source): the seed means over the
  empty slice `[1:1]` are NaN, and in the loop every
  `(avg * (period - 1) + x) / period` is numpy scalar arithmetic (`x` is
  an `np.float64`), so division by `period = 0` yields NaN/inf per
  IEEE-754 with a RuntimeWarning — no exception; every `avg_loss == 0.0`
  test is False on NaN, so every cell of `rsi_vals` stays NaN and the
  function silently returns the all-NaN result over the original index;
* otherwise the computed `rsi_vals` written back onto the original
  positions. -/
def rsi_wilder (prices : List (Option ℚ)) (period : ℕ) :
    Except String (List (Option ℚ)) :=
  if (prices.filterMap id).length ≤ period then
    Except.ok (List.replicate prices.length none)
  else if period = 0 then
    Except.ok (List.replicate prices.length none)
  else
    Except.ok (writeBack prices (rsi_vals (prices.filterMap id) period))

/-- `rsi_wilder_df cols period` models the DataFrame entry point: a
DataFrame is a list of columns; with zero columns the source returns
`pd.Series(dtype="float64")` (empty), otherwise it computes on
`prices.iloc[:, 0]`, the first column. -/
def rsi_wilder_df (cols : List (List (Option ℚ))) (period : ℕ) :
    Except String (List (Option ℚ)) :=
  match cols with
  | [] => Except.ok []
  | c :: _ => rsi_wilder c period

/-! ### Supporting lemmas -/

theorem writeBack_length (prices vals : List (Option ℚ)) :
    (writeBack prices vals).length = prices.length := by
  induction prices generalizing vals with
  | nil => rfl
  | cons hd tl ih =>
      cases hd with
      | none => simp [writeBack, ih]
      | some x => simp [writeBack, ih]

theorem mem_writeBack {o : Option ℚ} :
    ∀ (prices vals : List (Option ℚ)), o ∈ writeBack prices vals →
      o = none ∨ o ∈ vals := by
  intro prices
  induction prices with
  | nil => intro vals h; simp [writeBack] at h
  | cons hd tl ih =>
      intro vals h
      cases hd with
      | none =>
          rcases List.mem_cons.mp h with h0 | h0
          · exact Or.inl h0
          · exact ih vals h0
      | some x =>
          rcases List.mem_cons.mp h with h0 | h0
          · cases vals with
            | nil => exact Or.inl h0
            | cons v vs => exact Or.inr (h0 ▸ List.mem_cons_self v vs)
          · rcases ih vals.tail h0 with h1 | h1
            · exact Or.inl h1
            · cases vals with
              | nil => simp at h1
              | cons v vs => exact Or.inr (List.mem_cons_of_mem v h1)

theorem writeBack_map_some :
    ∀ (ps : List ℚ) (vals : List (Option ℚ)), vals.length = ps.length →
      writeBack (ps.map some) vals = vals := by
  intro ps
  induction ps with
  | nil =>
      intro vals h
      cases vals with
      | nil => rfl
      | cons v vs => simp at h
  | cons hd tl ih =>
      intro vals h
      cases vals with
      | nil => simp at h
      | cons v vs =>
          simp only [List.map_cons, writeBack, List.headD, List.tail]
          simp only [List.length_cons, Nat.succ_inj] at h
          rw [ih vs h]

theorem filterMap_id_map_some (ps : List ℚ) :
    (ps.map some).filterMap id = ps := by
  induction ps with
  | nil => rfl
  | cons hd tl ih => simp [List.filterMap_cons, ih]

theorem rsi_vals_length (ps : List ℚ) (p : ℕ) :
    (rsi_vals ps p).length = ps.length := by
  simp [rsi_vals]

theorem rsi_vals_getD (ps : List ℚ) (p i : ℕ) (hi : i < ps.length) :
    (rsi_vals ps p).getD i none = rsiAt ps p i := by
  unfold rsi_vals
  rw [List.getD_eq_getElem?_getD, List.getElem?_map, List.getElem?_range hi]
  rfl

theorem sum_range_map_succ_eq_Icc (f : ℕ → ℚ) (p : ℕ) :
    ((List.range p).map fun k => f (k + 1)).sum = ∑ k in Finset.Icc 1 p, f k := by
  induction p with
  | zero => simp
  | succ p ih =>
      rw [List.range_succ, List.map_append, List.sum_append,
        Finset.sum_Icc_succ_top (Nat.one_le_iff_ne_zero.mpr (Nat.succ_ne_zero p)), ← ih]
      simp

theorem avgs_nonneg (ps : List ℚ) (p : ℕ) (hp : 1 ≤ p) :
    ∀ j, 0 ≤ (avgs ps p j).1 ∧ 0 ≤ (avgs ps p j).2 := by
  have hgain : ∀ i, 0 ≤ gain ps i := fun i => le_max_right _ 0
  have hloss : ∀ i, 0 ≤ loss ps i := fun i => le_max_right _ 0
  have hpq : (0 : ℚ) ≤ (p : ℚ) := Nat.cast_nonneg p
  have hp1 : (0 : ℚ) ≤ (p : ℚ) - 1 := by
    have : (1 : ℚ) ≤ (p : ℚ) := by exact_mod_cast hp
    linarith
  intro j
  induction j with
  | zero =>
      constructor
      · exact div_nonneg
          (List.sum_nonneg (by
            intro x hx
            rcases List.mem_map.mp hx with ⟨k, _, rfl⟩
            exact hgain _)) hpq
      · exact div_nonneg
          (List.sum_nonneg (by
            intro x hx
            rcases List.mem_map.mp hx with ⟨k, _, rfl⟩
            exact hloss _)) hpq
  | succ j ih =>
      constructor
      · exact div_nonneg (by nlinarith [ih.1, hgain (p + j + 1)]) hpq
      · exact div_nonneg (by nlinarith [ih.2, hloss (p + j + 1)]) hpq

theorem rsiFromAvgs_bounds (ag al : ℚ) (hag : 0 ≤ ag) (hal : 0 ≤ al) :
    0 ≤ rsiFromAvgs ag al ∧ rsiFromAvgs ag al ≤ 100 := by
  unfold rsiFromAvgs
  split
  · norm_num
  · rename_i h
    have hal' : 0 < al := lt_of_le_of_ne hal (Ne.symm h)
    have hrs : 0 ≤ ag / al := div_nonneg hag hal'.le
    have h1 : (1 : ℚ) ≤ 1 + ag / al := by linarith
    have hpos : 0 < 100 / (1 + ag / al) := div_pos (by norm_num) (by linarith)
    have hle : 100 / (1 + ag / al) ≤ 100 := div_le_self (by norm_num) h1
    constructor <;> linarith

theorem rsi_wilder_map_some (ps : List ℚ) (p : ℕ) (hp : 1 ≤ p)
    (hn : p < ps.length) :
    rsi_wilder (ps.map some) p = Except.ok (rsi_vals ps p) := by
  unfold rsi_wilder
  rw [filterMap_id_map_some]
  rw [if_neg (by omega), if_neg (by omega)]
  rw [writeBack_map_some ps (rsi_vals ps p) (rsi_vals_length ps p)]

theorem getD_eq_of_flat {ps : List ℚ} {c : ℚ} (hc : ∀ x ∈ ps, x = c)
    {i : ℕ} (hi : i < ps.length) : ps.getD i 0 = c := by
  rw [List.getD_eq_getElem?_getD, List.getElem?_eq_getElem hi]
  exact hc _ (List.getElem_mem hi)

theorem gain_loss_of_flat {ps : List ℚ} {c : ℚ} (hc : ∀ x ∈ ps, x = c)
    {i : ℕ} (hi : i < ps.length) : gain ps i = 0 ∧ loss ps i = 0 := by
  have hd : delta ps i = 0 := by
    unfold delta
    rw [getD_eq_of_flat hc hi, getD_eq_of_flat hc (lt_of_le_of_lt (Nat.sub_le i 1) hi)]
    ring
  unfold gain loss
  rw [hd]
  simp

theorem avgs_flat (ps : List ℚ) (p : ℕ) (c : ℚ) (hc : ∀ x ∈ ps, x = c) :
    ∀ j, p + j < ps.length → avgs ps p j = (0, 0) := by
  intro j
  induction j with
  | zero =>
      intro hj
      have hsum : ∀ (f : ℕ → ℚ), (∀ k < p, f (k + 1) = 0) →
          ((List.range p).map fun k => f (k + 1)).sum = 0 := by
        intro f hf
        apply List.sum_eq_zero
        intro x hx
        rcases List.mem_map.mp hx with ⟨k, hk, rfl⟩
        exact hf k (List.mem_range.mp hk)
      show (first_gain_avg ps p, first_loss_avg ps p) = (0, 0)
      unfold first_gain_avg first_loss_avg
      rw [hsum (gain ps) (fun k hk =>
            (gain_loss_of_flat hc (by omega)).1),
          hsum (loss ps) (fun k hk =>
            (gain_loss_of_flat hc (by omega)).2)]
      simp
  | succ j ih =>
      intro hj
      have hlt : p + j < ps.length := by omega
      have h0 := ih hlt
      have hidx : p + j + 1 < ps.length := by omega
      apply Prod.ext_iff.mpr
      constructor
      · show ((avgs ps p j).1 * ((p : ℚ) - 1) + gain ps (p + j + 1)) / (p : ℚ) = 0
        rw [h0, (gain_loss_of_flat hc hidx).1]
        norm_num
      · show ((avgs ps p j).2 * ((p : ℚ) - 1) + loss ps (p + j + 1)) / (p : ℚ) = 0
        rw [h0, (gain_loss_of_flat hc hidx).2]
        norm_num

theorem gain_loss_of_decr {ps : List ℚ}
    (hdec : ∀ i, i + 1 < ps.length → ps.getD (i + 1) 0 < ps.getD i 0)
    {i : ℕ} (h1 : 1 ≤ i) (hi : i < ps.length) :
    gain ps i = 0 ∧ 0 < loss ps i := by
  have hi' : i - 1 + 1 = i := by omega
  have hd : delta ps i < 0 := by
    unfold delta
    have := hdec (i - 1) (by omega)
    rw [hi'] at this
    linarith
  constructor
  · unfold gain
    exact max_eq_right hd.le
  · unfold loss
    rw [max_eq_left (by linarith)]
    linarith

theorem avgs_decr (ps : List ℚ) (p : ℕ) (hp : 1 ≤ p)
    (hdec : ∀ i, i + 1 < ps.length → ps.getD (i + 1) 0 < ps.getD i 0) :
    ∀ j, p + j < ps.length → (avgs ps p j).1 = 0 ∧ 0 < (avgs ps p j).2 := by
  have hpq : (0 : ℚ) < (p : ℚ) := by exact_mod_cast hp
  have hp1 : (0 : ℚ) ≤ (p : ℚ) - 1 := by
    have : (1 : ℚ) ≤ (p : ℚ) := by exact_mod_cast hp
    linarith
  intro j
  induction j with
  | zero =>
      intro hj
      constructor
      · show first_gain_avg ps p = 0
        unfold first_gain_avg
        rw [List.sum_eq_zero]
        · exact zero_div _
        · intro x hx
          rcases List.mem_map.mp hx with ⟨k, hk, rfl⟩
          have hk' : k < p := List.mem_range.mp hk
          exact (gain_loss_of_decr hdec (by omega) (by omega)).1
      · show 0 < first_loss_avg ps p
        unfold first_loss_avg
        apply div_pos _ hpq
        apply List.sum_pos
        · intro x hx
          rcases List.mem_map.mp hx with ⟨k, hk, rfl⟩
          have hk' : k < p := List.mem_range.mp hk
          exact (gain_loss_of_decr hdec (by omega) (by omega)).2
        · apply List.ne_nil_of_length_pos
          simpa using hp
  | succ j ih =>
      intro hj
      have hlt : p + j < ps.length := by omega
      obtain ⟨hg0, hl0⟩ := ih hlt
      have hidx : p + j + 1 < ps.length := by omega
      obtain ⟨hgz, hlz⟩ := gain_loss_of_decr hdec (by omega) hidx
      constructor
      · show ((avgs ps p j).1 * ((p : ℚ) - 1) + gain ps (p + j + 1)) / (p : ℚ) = 0
        rw [hg0, hgz]
        norm_num
      · show 0 < ((avgs ps p j).2 * ((p : ℚ) - 1) + loss ps (p + j + 1)) / (p : ℚ)
        apply div_pos _ hpq
        nlinarith

/-! ### Claims -/

/-- Claim C1: for a filtered series longer than `period` and any filtered
index `period < i < n`, the smoothed averages at step `i` are obtained from
the previous step's smoothed averages by Wilder's recurrence
`avg = (avg_prev * (period - 1) + x) / period`, where the step's gain and
loss are the positive parts of the price delta in each direction, and when
the smoothed average loss is nonzero the produced value at `i` is
`100 - 100 / (1 + avg_gain / avg_loss)`. -/
theorem claim_C1 (ps : List ℚ) (p i : ℕ) (hp : 1 ≤ p)
    (hn : p < ps.length) (hi1 : p < i) (hi2 : i < ps.length) :
    (avgs ps p (i - p)).1
        = ((avgs ps p (i - p - 1)).1 * ((p : ℚ) - 1)
            + max (ps.getD i 0 - ps.getD (i - 1) 0) 0) / (p : ℚ)
    ∧ (avgs ps p (i - p)).2
        = ((avgs ps p (i - p - 1)).2 * ((p : ℚ) - 1)
            + max (-(ps.getD i 0 - ps.getD (i - 1) 0)) 0) / (p : ℚ)
    ∧ ((avgs ps p (i - p)).2 ≠ 0 →
        rsiAt ps p i
          = some (100 - 100 / (1 + (avgs ps p (i - p)).1 / (avgs ps p (i - p)).2))) := by
  obtain ⟨j, rfl⟩ : ∃ j, i = p + j + 1 := ⟨i - p - 1, by omega⟩
  have h2 : p + j + 1 - p - 1 = j := by omega
  have h1 : p + j + 1 - p = j + 1 := by omega
  rw [h2, h1]
  refine ⟨rfl, rfl, ?_⟩
  intro hal
  unfold rsiAt
  rw [if_neg (by omega), h1]
  unfold rsiFromAvgs
  rw [if_neg hal]

/-- Claim C2: for a filtered series longer than `period`, the first
smoothed averages are the simple means over the window `[1, period]` of
the positive-clipped deltas (gains) and of the magnitudes of the
negative-clipped deltas (losses), and when the seeded average loss is
nonzero the value produced at filtered index `period` is
`100 - 100 / (1 + avg_gain_0 / avg_loss_0)`. -/
theorem claim_C2 (ps : List ℚ) (p : ℕ) (hp : 1 ≤ p) (hn : p < ps.length) :
    (avgs ps p 0).1
        = (∑ k in Finset.Icc 1 p, max (ps.getD k 0 - ps.getD (k - 1) 0) 0) / (p : ℚ)
    ∧ (avgs ps p 0).2
        = (∑ k in Finset.Icc 1 p, max (-(ps.getD k 0 - ps.getD (k - 1) 0)) 0) / (p : ℚ)
    ∧ ((avgs ps p 0).2 ≠ 0 →
        (rsi_vals ps p).getD p none
          = some (100 - 100 / (1 + (avgs ps p 0).1 / (avgs ps p 0).2))) := by
  refine ⟨?_, ?_, ?_⟩
  · show first_gain_avg ps p = _
    unfold first_gain_avg
    rw [sum_range_map_succ_eq_Icc (gain ps) p]
    rfl
  · show first_loss_avg ps p = _
    unfold first_loss_avg
    rw [sum_range_map_succ_eq_Icc (loss ps) p]
    rfl
  · intro hal
    rw [rsi_vals_getD ps p p hn]
    unfold rsiAt
    rw [if_neg (lt_irrefl p), Nat.sub_self]
    unfold rsiFromAvgs
    rw [if_neg hal]

/-- Claim C3: wherever a value is produced, a zero smoothed average loss
forces the value `100` through the guard (the division branch is not
taken), and on a flat series every produced value is exactly `100` even
though the average gain is zero as well. -/
theorem claim_C3 (ps : List ℚ) (p : ℕ) :
    (∀ i, p ≤ i → i < ps.length → (avgs ps p (i - p)).2 = 0 →
      rsiAt ps p i = some 100)
    ∧ (∀ c, (∀ x ∈ ps, x = c) → ∀ i, p ≤ i → i < ps.length →
      rsiAt ps p i = some 100) := by
  have hbase : ∀ i, p ≤ i → i < ps.length → (avgs ps p (i - p)).2 = 0 →
      rsiAt ps p i = some 100 := by
    intro i hpi hi hal
    unfold rsiAt
    rw [if_neg (by omega)]
    unfold rsiFromAvgs
    rw [if_pos hal]
  refine ⟨hbase, ?_⟩
  intro c hc i hpi hi
  have h0 : avgs ps p (i - p) = (0, 0) := avgs_flat ps p c hc (i - p) (by omega)
  exact hbase i hpi hi (by rw [h0])

/-- Claim C4 (counterexample): on the input `[some 1, none]` with period
`1` the returned series has length `2`, the length of the original input,
while the filtered input has length `1` — the output length does not equal
the filtered length. -/
theorem claim_C4_cex :
    rsi_wilder [some 1, none] 1 = Except.ok [none, none]
    ∧ ([some (1 : ℚ), none].filterMap id).length = 1 := ⟨rfl, rfl⟩

/-- Claim C4 (amended): whenever `rsi_wilder` returns a series, its length
equals the length of the ORIGINAL input (missing-price positions remain
undefined in place); it equals the filtered length only when no price is
missing. -/
theorem claim_C4 (prices : List (Option ℚ)) (p : ℕ) (l : List (Option ℚ))
    (h : rsi_wilder prices p = Except.ok l) : l.length = prices.length := by
  unfold rsi_wilder at h
  split at h
  · injection h with h'
    subst h'
    simp
  · split at h
    · injection h with h'
      subst h'
      simp
    · injection h with h'
      subst h'
      rw [writeBack_length]

theorem claim_C4_witness :
    (writeBack [some 1, some 2, none] (rsi_vals [(1 : ℚ), 2] 1)).length = 3 :=
  claim_C4 [some 1, some 2, none] 1 _ rfl

/-- Claim C5: for a filtered series of length `n > period ≥ 1`, the
computed array is undefined exactly at filtered indices `0 .. period - 1`
and carries a defined value at every filtered index from `period` to
`n - 1`; for `n = period + 1` the array is `period` undefined cells
followed by the single seeded value; and on an all-present input
`rsi_wilder` returns exactly this array. -/
theorem claim_C5 (ps : List ℚ) (p : ℕ) (hp : 1 ≤ p) (hn : p < ps.length) :
    (∀ i, i < ps.length → ((rsi_vals ps p).getD i none = none ↔ i < p))
    ∧ (∀ i, p ≤ i → i < ps.length → ∃ x, (rsi_vals ps p).getD i none = some x)
    ∧ (ps.length = p + 1 →
        rsi_vals ps p
          = List.replicate p none
            ++ [some (rsiFromAvgs (avgs ps p 0).1 (avgs ps p 0).2)])
    ∧ rsi_wilder (ps.map some) p = Except.ok (rsi_vals ps p) := by
  refine ⟨?_, ?_, ?_, rsi_wilder_map_some ps p hp hn⟩
  · intro i hi
    rw [rsi_vals_getD ps p i hi]
    unfold rsiAt
    by_cases hip : i < p
    · simp [hip]
    · simp [hip]
  · intro i hpi hi
    rw [rsi_vals_getD ps p i hi]
    unfold rsiAt
    rw [if_neg (by omega)]
    exact ⟨_, rfl⟩
  · intro hlen
    unfold rsi_vals
    rw [hlen, List.range_succ, List.map_append]
    congr 1
    · rw [List.eq_replicate_iff]
      refine ⟨by simp, ?_⟩
      intro b hb
      rcases List.mem_map.mp hb with ⟨k, hk, rfl⟩
      have hkp : k < p := List.mem_range.mp hk
      unfold rsiAt
      rw [if_pos hkp]
    · simp only [List.map_cons, List.map_nil]
      congr 1
      unfold rsiAt
      rw [if_neg (lt_irrefl p), Nat.sub_self]

theorem claim_C5_witness :
    rsi_wilder ([(1 : ℚ), 2].map some) 1 = Except.ok (rsi_vals [(1 : ℚ), 2] 1) :=
  (claim_C5 [1, 2] 1 (by decide) (by decide)).2.2.2

/-- Claim C6: for period `p ≥ 1` and a filtered input of length at most
`p`, the result is the untouched all-undefined series over the original
positions (the early return before any gain/loss arithmetic), and the
empty input yields an empty series, not an error. -/
theorem claim_C6 (prices : List (Option ℚ)) (p : ℕ) (hp : 1 ≤ p)
    (h : (prices.filterMap id).length ≤ p) :
    rsi_wilder prices p = Except.ok (List.replicate prices.length none)
    ∧ rsi_wilder [] p = Except.ok [] := by
  constructor
  · unfold rsi_wilder
    rw [if_pos h]
  · unfold rsi_wilder
    rw [if_pos (by simp)]
    rfl

theorem claim_C6_witness :
    rsi_wilder [some (1 : ℚ)] 2 = Except.ok [none]
    ∧ rsi_wilder [] 2 = Except.ok [] :=
  claim_C6 [some 1] 2 (by decide) (by decide)

/-- Claim C7: for any input and any period `≥ 1`, every defined value in a
returned series lies in the closed interval `[0, 100]`. -/
theorem claim_C7 (prices : List (Option ℚ)) (p : ℕ) (l : List (Option ℚ))
    (hp : 1 ≤ p) (h : rsi_wilder prices p = Except.ok l) :
    ∀ o ∈ l, ∀ x : ℚ, o = some x → 0 ≤ x ∧ x ≤ 100 := by
  intro o ho x hx
  subst hx
  unfold rsi_wilder at h
  split at h
  · injection h with h'
    subst h'
    exact absurd (List.eq_of_mem_replicate ho) (by simp)
  · rw [if_neg (by omega)] at h
    injection h with h'
    subst h'
    rcases mem_writeBack _ _ ho with h0 | h0
    · exact absurd h0 (by simp)
    · rcases List.mem_map.mp h0 with ⟨i, hi, heq⟩
      unfold rsiAt at heq
      split at heq
      · exact absurd heq (by simp)
      · injection heq with h2
        rw [← h2]
        exact rsiFromAvgs_bounds _ _ (avgs_nonneg _ p hp _).1 (avgs_nonneg _ p hp _).2

theorem claim_C7_witness : 0 ≤ (100 : ℚ) ∧ (100 : ℚ) ≤ 100 := by
  have h := claim_C7 [some 1, some 2] 1
      (writeBack [some 1, some 2] (rsi_vals [1, 2] 1)) (by decide) rfl
  refine h (some 100) ?_ 100 rfl
  have heval : writeBack [some 1, some 2] (rsi_vals [(1 : ℚ), 2] 1) = [none, some 100] := by
    norm_num [writeBack, rsi_vals, List.range_succ, rsiAt, rsiFromAvgs, avgs,
      first_gain_avg, first_loss_avg, gain, loss, delta]
  rw [heval]
  simp

/-- Claim C8: on a strictly decreasing filtered series longer than the
period, every produced value is exactly `0`: every step is a pure loss, so
the smoothed average gain stays `0` and the ratio `RS` is `0` at every
step; on the all-present input `rsi_wilder` returns exactly that array. -/
theorem claim_C8 (ps : List ℚ) (p : ℕ) (hp : 1 ≤ p) (hn : p < ps.length)
    (hdec : ∀ i, i + 1 < ps.length → ps.getD (i + 1) 0 < ps.getD i 0) :
    (∀ i, p ≤ i → i < ps.length → rsiAt ps p i = some 0)
    ∧ rsi_wilder (ps.map some) p = Except.ok (rsi_vals ps p) := by
  constructor
  · intro i hpi hi
    obtain ⟨hg, hl⟩ := avgs_decr ps p hp hdec (i - p) (by omega)
    unfold rsiAt
    rw [if_neg (by omega)]
    unfold rsiFromAvgs
    rw [if_neg (ne_of_gt hl), hg, zero_div]
    norm_num
  · exact rsi_wilder_map_some ps p hp hn

theorem claim_C8_witness : rsiAt [(3 : ℚ), 2, 1] 1 2 = some 0 := by
  have h := claim_C8 [3, 2, 1] 1 (by decide) (by decide)
      (by
        intro i hi
        simp only [List.length_cons, List.length_nil] at hi
        have hb : i < 2 := by omega
        interval_cases i <;> decide)
  exact h.1 2 (by decide) (by decide)

/-- Claim C9 (counterexample): with period `0 < 1` and the single-price
input `[some 1]` the function is not rejected: it silently returns the
all-undefined series. -/
theorem claim_C9_cex : rsi_wilder [some 1] 0 = Except.ok [none] := rfl

/-- Claim C9 (amended): `rsi_wilder` performs no period validation and
never rejects.  For `period = 0` (the representable `period < 1` case) it
silently returns the all-undefined series over the original positions: the
seed means over the empty slice and the numpy IEEE loop arithmetic produce
only NaN cells, with at most a RuntimeWarning — there is no defined error
before (or during) the computation. -/
theorem claim_C9 (prices : List (Option ℚ)) :
    rsi_wilder prices 0 = Except.ok (List.replicate prices.length none) := by
  unfold rsi_wilder
  split
  · rfl
  · rw [if_pos rfl]

/-- Claim C10: on a DataFrame input the function computes over the first
column only, and a DataFrame with zero columns yields an empty series
without an error. -/
theorem claim_C10 :
    (∀ p : ℕ, rsi_wilder_df [] p = Except.ok [])
    ∧ ∀ (c : List (Option ℚ)) (cs : List (List (Option ℚ))) (p : ℕ),
        rsi_wilder_df (c :: cs) p = rsi_wilder c p :=
  ⟨fun _ => rfl, fun _ _ _ => rfl⟩

theorem claim_C1_witness :
    rsiAt [(1 : ℚ), 3, 2] 1 2
      = some (100 - 100
          / (1 + (avgs [(1 : ℚ), 3, 2] 1 1).1 / (avgs [(1 : ℚ), 3, 2] 1 1).2)) := by
  have h := claim_C1 [1, 3, 2] 1 2 (by decide) (by decide) (by decide) (by decide)
  exact h.2.2 (by
    norm_num [avgs, first_gain_avg, first_loss_avg, gain, loss, delta, List.range_succ])

theorem claim_C2_witness :
    (rsi_vals [(2 : ℚ), 1, 3] 1).getD 1 none
      = some (100 - 100
          / (1 + (avgs [(2 : ℚ), 1, 3] 1 0).1 / (avgs [(2 : ℚ), 1, 3] 1 0).2)) := by
  have h := claim_C2 [2, 1, 3] 1 (by decide) (by decide)
  exact h.2.2 (by
    norm_num [avgs, first_gain_avg, first_loss_avg, gain, loss, delta, List.range_succ])

theorem claim_C3_witness : rsiAt [(1 : ℚ), 1, 1] 1 2 = some 100 := by
  have h := claim_C3 [1, 1, 1] 1
  exact h.2 1 (by decide) 2 (by decide) (by decide)

end Rsicvs
